import Mathlib

/-!
A verification development for the `sim` program, a manager of program
entries (symlinks, copies, moved files) in a single managed directory.
The Go source's registry, installer, pruner and doctor logic is embedded
shallowly: absolute paths are component lists, a directory scan is a list
of observation records, and filesystem effects are explicit state passing.
-/

/-- An absolute filesystem path, as its list of components from the root.
Rendering a component list as a string is injective for ordinary components,
so path equality in the source is component-list equality here. -/
abbrev AbsPath := List String

/-- A symlink's stored text: whether filepath.IsAbs holds of it, plus its
components. -/
structure LinkText where
  abs : Bool
  comps : List String
deriving DecidableEq

/-- Appending relative components to a clean absolute base while resolving
"." and ".." components, as the cleaning step of filepath.Join does.
A ".." above the root stays at the root, as in Go's Clean. -/
def cleanAppend (base : AbsPath) (rel : List String) : AbsPath :=
  rel.foldl (fun acc c => if c = "." then acc else if c = ".." then acc.dropLast else acc ++ [c])
    base

/-- ensureAbs from main.go: an absolute link text is returned unchanged, a
relative one is joined to the base directory. -/
def ensureAbs (bin : AbsPath) (t : LinkText) : AbsPath :=
  if t.abs then t.comps else cleanAppend bin t.comps

/-- Length of the longest common component run of two paths. -/
def commonPrefixLen : List String → List String → Nat
  | a :: as, b :: bs => if a = b then commonPrefixLen as bs + 1 else 0
  | _, _ => 0

/-- filepath.Rel on two clean absolute paths: climb out of the unshared part
of the base, then descend into the target.  (Go returns "." when the paths
are equal; the empty component list plays that role here, and joining it to
the base has the same effect.) -/
def relPath (base targ : AbsPath) : List String :=
  List.replicate (base.length - commonPrefixLen base targ) ".." ++
    targ.drop (commonPrefixLen base targ)

/-- A clean component list: no "." or ".." components, which is what
filepath.Abs guarantees of its results. -/
abbrev cleanComps (l : List String) : Prop := ∀ c ∈ l, c ≠ "." ∧ c ≠ ".."

/-- Whether an entry name is hidden, i.e. starts with a dot
(strings.HasPrefix(name, ".") in the source). -/
def isHidden (s : String) : Bool :=
  match s.data with
  | [] => false
  | c :: _ => c == '.'

/-- fs.FileMode, reduced to what the program inspects: the symlink and
directory type bits and the permission bits. -/
structure Mode where
  sym : Bool
  dir : Bool
  perm : Nat
deriving DecidableEq

/-- isExecutable from main.go: any of the three execute bits is set. -/
def isExecutable (m : Mode) : Bool := m.perm &&& 0o111 != 0

/-- Association-list lookup, modelling a Go map read. -/
def alookup {α β : Type} [DecidableEq α] : List (α × β) → α → Option β
  | [], _ => none
  | (k, v) :: r, a => if a = k then some v else alookup r a

/-- Remove every pair with the given key, modelling file removal from a
directory listing. -/
def aerase {α β : Type} [DecidableEq α] : List (α × β) → α → List (α × β)
  | [], _ => []
  | (k, v) :: r, a => if k = a then aerase r a else (k, v) :: aerase r a

/-! ## The installer (newInstallCommand, copy, move, symlink, sameFileContent) -/

/-- Observations about an install source made by newInstallCommand and used
by the placement operations: `mode` and `size` come from os.Stat(arg) (which
follows symlinks), `content` is what cmp reads through the source path,
`absTarget` is filepath.Abs(arg), `lstatSym` records whether os.Lstat on the
source path sees a symlink (`none` models an Lstat failure), and `hid` is
whether the base name starts with a dot. -/
structure Source where
  mode : Mode
  size : Nat
  content : List Nat
  absTarget : AbsPath
  lstatSym : Option Bool
  hid : Bool
deriving DecidableEq

/-- The checks a source accepted by newInstallCommand has passed: it is not
a directory, not hidden, and executable.  os.Stat follows symlinks, so the
mode it reports never carries the symlink type bit. -/
abbrev validSource (s : Source) : Prop :=
  s.mode.sym = false ∧ s.mode.dir = false ∧ isExecutable s.mode = true ∧ s.hid = false

/-- What os.Lstat sees at the destination path: a regular file with its
content, a symlink with its stored text and the content cmp would read
through it, or a directory. -/
inductive DNode
  | file (perm : Nat) (size : Nat) (content : List Nat)
  | link (perm : Nat) (size : Nat) (text : LinkText) (resolved : List Nat)
  | dnode (perm : Nat)
deriving DecidableEq

/-- Result of os.Lstat on the destination path. -/
inductive Lst
  | ok (d : DNode)
  | notExist
  | err
deriving DecidableEq

/-- The fs.FileMode os.Lstat reports for a destination node. -/
def dnodeMode : DNode → Mode
  | .file p _ _ => ⟨false, false, p⟩
  | .link p _ _ _ => ⟨true, false, p⟩
  | .dnode p => ⟨false, true, p⟩

def dnodeSize : DNode → Nat
  | .file _ s _ => s
  | .link _ s _ _ => s
  | .dnode _ => 0

/-- The bytes cmp reads at the destination path (cmp follows symlinks). -/
def dnodeContent : DNode → List Nat
  | .file _ _ c => c
  | .link _ _ _ r => r
  | .dnode _ => []

/-- sameFileContent from main.go: compare sizes, then whole modes (type
bits included), then the bytes, in that short-circuit order. -/
def sameFileContent (src : Source) (d : DNode) : Bool :=
  dnodeSize d == src.size && (dnodeMode d == src.mode && dnodeContent d == src.content)

/-- How a placement operation ends, mirroring the printed line or the error
reported by copy, move and symlink in main.go. -/
inductive Outcome
  | created
  | alreadyInstalled
  | conflict
  | lstatError
  | srcLstatError
  | symlinkRejected
  | otherError
deriving DecidableEq

/-- copy from main.go.  Returns the outcome, whether cp ran, and the
destination afterwards.  (cp is modelled as an exact copy of size, mode and
bytes, which is what the program relies on.) -/
def copyOp (src : Source) (dl : Lst) : Outcome × Bool × Lst :=
  match dl with
  | .err => (.lstatError, false, .err)
  | .ok d =>
    if sameFileContent src d then (.alreadyInstalled, false, .ok d)
    else (.conflict, false, .ok d)
  | .notExist => (.created, true, .ok (.file src.mode.perm src.size src.content))

/-- move from main.go.  Returns the outcome and whether os.Rename relocated
the source.  When the destination exists with identical content the program
prints "(already installed)" and still renames; the symlink check on the
source happens only in the branch where the destination does not exist. -/
def moveOp (src : Source) (dl : Lst) : Outcome × Bool :=
  match dl with
  | .err => (.lstatError, false)
  | .ok d =>
    if sameFileContent src d then (.alreadyInstalled, true) else (.conflict, false)
  | .notExist =>
    match src.lstatSym with
    | none => (.srcLstatError, false)
    | some true => (.symlinkRejected, false)
    | some false => (.created, true)

/-- symlink from main.go.  os.Symlink fails with ErrExist exactly when the
destination exists; an existing symlink whose stored text equals the
computed relative target is "already installed". -/
def symlinkOp (bin : AbsPath) (src : Source) (dl : Lst) : Outcome × Lst :=
  match dl with
  | .notExist =>
    (.created, .ok (.link 0 0 ⟨false, relPath bin src.absTarget⟩ src.content))
  | .err => (.otherError, .err)
  | .ok d =>
    match d with
    | .link p s t r =>
      if t = ⟨false, relPath bin src.absTarget⟩ then (.alreadyInstalled, .ok (.link p s t r))
      else (.conflict, .ok (.link p s t r))
    | _ => (.conflict, .ok d)

/-! ## The doctor (both the main.go revision and the earlier revision with
duplicate-target detection) -/

/-- The lstat-level type of a directory entry, as DirEntry.Type() reports
it. -/
inductive FType
  | regularT
  | symlinkT
  | dirT
deriving DecidableEq

/-- Result of os.Stat on an entry's path (following symlinks). -/
inductive StatRes
  | ok (m : Mode)
  | notExist
  | otherErr
deriving DecidableEq

/-- One scanned entry of the managed directory together with the
observations doctor makes about it: its name and lstat type, the result of
following it with os.Stat, and its readlink text (`none` models a readlink
failure; only meaningful for symlinks). -/
structure Entry where
  name : String
  ftype : FType
  stat : StatRes
  link : Option LinkText
deriving DecidableEq

/-- An issue doctor reports as an error line. -/
inductive Issue
  | unexpectedDir (path : AbsPath)
  | brokenSymlink (path : AbsPath)
  | statError (path : AbsPath)
  | notExecutable (path : AbsPath)
  | notSymlink (path : AbsPath)
  | readlinkError (path : AbsPath)
  | absoluteLink (path : AbsPath)
  | duplicateTarget (name other : String) (target : AbsPath)
deriving DecidableEq

/-- One entry's checks in the doctor of the earlier revision of the tool
(src/unnamed/part_000), which also keeps a target-to-name index for
duplicate-target detection: returns this entry's issues and the updated
index.  Only hidden regular files are skipped there; the directory check
comes first. -/
def v0Step (bin : AbsPath) (m : List (AbsPath × String)) (e : Entry) :
    List Issue × List (AbsPath × String) :=
  if e.ftype = .dirT then ([.unexpectedDir (bin ++ [e.name])], m)
  else if e.ftype = .regularT ∧ isHidden e.name = true then ([], m)
  else if e.ftype ≠ .symlinkT then ([.notSymlink (bin ++ [e.name])], m)
  else
    match e.stat with
    | .notExist => ([.brokenSymlink (bin ++ [e.name])], m)
    | .otherErr => ([.statError (bin ++ [e.name])], m)
    | .ok mo =>
      if isExecutable mo = false then ([.notExecutable (bin ++ [e.name])], m)
      else
        match e.link with
        | none => ([.readlinkError (bin ++ [e.name])], m)
        | some t =>
          if t.abs then ([.absoluteLink (bin ++ [e.name])], m)
          else
            match alookup m (ensureAbs bin t) with
            | some other => ([.duplicateTarget e.name other (ensureAbs bin t)], m)
            | none => ([], (ensureAbs bin t, e.name) :: m)

/-- The earlier revision's doctor loop, threading the target index. -/
def v0Go (bin : AbsPath) (m : List (AbsPath × String)) : List Entry → List Issue
  | [] => []
  | e :: rest => (v0Step bin m e).1 ++ v0Go bin (v0Step bin m e).2 rest

/-- The target index accumulated by the earlier revision's doctor after a
run over a list of entries. -/
def v0Map (bin : AbsPath) (m : List (AbsPath × String)) : List Entry → List (AbsPath × String)
  | [] => m
  | e :: rest => v0Map bin (v0Step bin m e).2 rest

/-- doctor of the earlier revision (src/unnamed/part_000), starting from an
empty target index. -/
def doctorV0 (bin : AbsPath) (l : List Entry) : List Issue := v0Go bin [] l

/-- One entry's checks in the doctor of main.go: the directory check comes
before the hidden-entry skip; non-symlinks only need to be executable. -/
def mainStep (bin : AbsPath) (e : Entry) : List Issue :=
  if e.ftype = .dirT then [.unexpectedDir (bin ++ [e.name])]
  else if isHidden e.name then []
  else
    match e.stat with
    | .notExist =>
      if e.ftype = .symlinkT then [.brokenSymlink (bin ++ [e.name])]
      else [.statError (bin ++ [e.name])]
    | .otherErr => [.statError (bin ++ [e.name])]
    | .ok mo =>
      if isExecutable mo = false then [.notExecutable (bin ++ [e.name])]
      else if e.ftype ≠ .symlinkT then []
      else
        match e.link with
        | none => [.readlinkError (bin ++ [e.name])]
        | some t => if t.abs then [.absoluteLink (bin ++ [e.name])] else []

/-- doctor of main.go: every entry is checked independently, no state is
threaded, and no check is fatal. -/
def doctorMain (bin : AbsPath) : List Entry → List Issue
  | [] => []
  | e :: rest => mainStep bin e ++ doctorMain bin rest

/-- A symlink entry that passes every non-duplicate doctor check of the
earlier revision: it stats to an existing executable and stores a relative
link text. -/
def isValidRel (e : Entry) : Bool :=
  (e.ftype == .symlinkT) &&
  ((match e.stat with | .ok m => isExecutable m | _ => false) &&
   (match e.link with | some t => !t.abs | none => false))

/-- The absolute target an entry's link text resolves to against the
managed directory (junk for entries without a link text). -/
def targetOf (bin : AbsPath) (e : Entry) : AbsPath :=
  match e.link with
  | some t => ensureAbs bin t
  | none => []

/-! ## A dynamic filesystem model for prune -/

/-- A node of the managed directory, as a scan records it. -/
inductive FsNode
  | regular (exec : Bool)
  | symlinkN (t : LinkText)
  | dirN
deriving DecidableEq

/-- The managed directory's live contents: name-to-node pairs (names are
unique in a real directory). -/
abbrev FS := List (String × FsNode)

def isLinkNode : FsNode → Bool
  | .symlinkN _ => true
  | _ => false

/-- What os.Stat reports: the path resolves to something, resolves to
nothing, or the walk fails with an error that is not not-exist (a symlink
loop once the fuel runs out, like ELOOP). -/
inductive StatO
  | found
  | notExist
  | errLoop
deriving DecidableEq

/-- If `p` is a direct child path of the managed directory, its entry
name. -/
def asBinEntry (bin p : AbsPath) : Option String :=
  match p.getLast? with
  | some n => if p.dropLast = bin then some n else none
  | none => none

/-- os.Stat: follow symlinks through the managed directory, treating
`ext` as the set of existing paths outside it. -/
def statFollow (bin : AbsPath) (ext : List AbsPath) (fs : FS) : Nat → AbsPath → StatO
  | 0, _ => .errLoop
  | fuel + 1, p =>
    match asBinEntry bin p with
    | some n =>
      match alookup fs n with
      | none => .notExist
      | some (.regular _) => .found
      | some .dirN => .found
      | some (.symlinkN t) => statFollow bin ext fs fuel (ensureAbs bin t)
    | none => if p ∈ ext then .found else .notExist

/-- The result of a prune run: names removed, names whose readlink failed,
whether a stat failure aborted the command (c.fatal), and the directory
afterwards. -/
structure PruneRes where
  removed : List String
  errs : List String
  aborted : Bool
  fs : FS
deriving DecidableEq

/-- prune from main.go over the scan list, threading the live directory:
hidden entries and non-symlinks are skipped, readlink failures are recorded
and processing continues, a broken entry is removed, and a stat failure
other than not-exist is fatal. -/
def pruneGo (bin : AbsPath) (ext : List AbsPath) (fuel : Nat) :
    List (String × FsNode) → FS → PruneRes
  | [], fs => ⟨[], [], false, fs⟩
  | (n, node) :: rest, fs =>
    if isHidden n || !isLinkNode node then pruneGo bin ext fuel rest fs
    else
      match alookup fs n with
      | none =>
        let r := pruneGo bin ext fuel rest fs
        ⟨r.removed, n :: r.errs, r.aborted, r.fs⟩
      | some (.symlinkN _) =>
        match statFollow bin ext fs fuel (bin ++ [n]) with
        | .notExist =>
          let r := pruneGo bin ext fuel rest (aerase fs n)
          ⟨n :: r.removed, r.errs, r.aborted, r.fs⟩
        | .found => pruneGo bin ext fuel rest fs
        | .errLoop => ⟨[], [], true, fs⟩
      | some _ =>
        let r := pruneGo bin ext fuel rest fs
        ⟨r.removed, n :: r.errs, r.aborted, r.fs⟩

/-- The entries prune is specified to remove: non-hidden symlink entries
whose path, followed against the initial snapshot, resolves to nothing. -/
def pruneTarget (bin : AbsPath) (ext : List AbsPath) (fs0 : FS) (fuel : Nat)
    (e : String × FsNode) : Bool :=
  !isHidden e.1 && (isLinkNode e.2 && (statFollow bin ext fs0 fuel (bin ++ [e.1]) == .notExist))

/-- Erase a list of names from the directory in order. -/
def eraseList (fs : FS) (ns : List String) : FS := ns.foldl (fun acc n => aerase acc n) fs

/-! ## The registry and matcher (newLsRmCommand, find, perform) -/

/-- A resolution result, `match` in main.go: an entry name and its absolute
link target (`none` stands for the source's "" on non-symlink entries). -/
structure MatchR where
  name : String
  absTarget : Option AbsPath
deriving DecidableEq

/-- The in-memory bidirectional index newLsRmCommand builds from the scan. -/
structure Registry where
  nameToAbsTarget : List (String × Option AbsPath)
  pathToAbsTarget : List (AbsPath × Option AbsPath)
  absTargetToNames : List (AbsPath × List String)

/-- One user-supplied argument string together with the two derived forms
find uses: its absolute path (resolved against the working directory) and
its base name. -/
structure Arg where
  raw : String
  abs : AbsPath
  base : String

/-- find from main.go: name and entry-path matching unless target-only,
target matching unless direct-only, in that order. -/
def find (reg : Registry) (directOnly targetOnly : Bool) (a : Arg) : List MatchR :=
  (if !targetOnly then
    (match alookup reg.nameToAbsTarget a.raw with
     | some t => [⟨a.raw, t⟩]
     | none => []) ++
    (match alookup reg.pathToAbsTarget a.abs with
     | some t => [⟨a.base, t⟩]
     | none => [])
   else []) ++
  (if !directOnly then
    (match alookup reg.absTargetToNames a.abs with
     | some ns => ns.map (fun n => ⟨n, some a.abs⟩)
     | none => [])
   else [])

/-- The inner loop of perform: act on each match whose name has not been
seen, threading the seen set.  Returns the matches acted on and the seen
set afterwards. -/
def performInner (seen : List String) : List MatchR → List MatchR × List String
  | [] => ([], seen)
  | m :: ms =>
    if m.name ∈ seen then performInner seen ms
    else
      let r := performInner (m.name :: seen) ms
      (m :: r.1, r.2)

/-- perform from main.go over the argument list: find each argument's
matches, count a no-match error unless quiet, and act on each match at most
once per name.  Returns the matches acted on (in order) and the error
count. -/
def performGo (reg : Registry) (directOnly targetOnly ignoreNoMatch : Bool)
    (seen : List String) : List Arg → List MatchR × Nat
  | [] => ([], 0)
  | a :: rest =>
    let ms := find reg directOnly targetOnly a
    let errs := if ignoreNoMatch = false ∧ ms = [] then 1 else 0
    let inner := performInner seen ms
    let r := performGo reg directOnly targetOnly ignoreNoMatch inner.2 rest
    (inner.1 ++ r.1, errs + r.2)

/-- perform, started with an empty seen set. -/
def perform (reg : Registry) (directOnly targetOnly ignoreNoMatch : Bool)
    (args : List Arg) : List MatchR × Nat :=
  performGo reg directOnly targetOnly ignoreNoMatch [] args

/-! ## List-all (the list command without arguments) -/

/-- A line printed by listProgram for one entry: just the name, a broken
target annotation, or a resolved target annotation.  (The showPath flag only
changes how the name is rendered, not which line or error is produced.) -/
inductive ListLine
  | plain (name : String)
  | broken (name : String) (target : AbsPath)
  | withTarget (name : String) (target : AbsPath)
deriving DecidableEq

/-- listProgram from main.go, as invoked per entry by the list-all loop:
`absTarget` is the registry's stored absolute target, with `[]` standing for
the source's "" on non-symlink entries, and `tstat` is os.Stat on that
target.  Returns the printed line (`none` when a stat failure was recorded
as an error instead) and the recorded error subjects. -/
def listProgram (showTarget : Bool) (name : String) (absTarget : AbsPath)
    (tstat : StatRes) : Option ListLine × List String :=
  if !showTarget || absTarget == [] then (some (.plain name), [])
  else
    match tstat with
    | .notExist => (some (.broken name absTarget), [])
    | .otherErr => (none, [name])
    | .ok _ => (some (.withTarget name absTarget), [])

/-- The list-all loop of main.go (list with no arguments): listProgram runs
on every scanned entry in order, accumulating printed lines and recorded
errors; nothing in the loop stops early. -/
def listAll (showTarget : Bool) :
    List (String × AbsPath × StatRes) → List ListLine × List String
  | [] => ([], [])
  | (name, tgt, st) :: rest =>
    ((listProgram showTarget name tgt st).1.toList ++ (listAll showTarget rest).1,
     (listProgram showTarget name tgt st).2 ++ (listAll showTarget rest).2)

/-! # Theorems

## Installer claims -/

theorem sfc_iff (src : Source) (d : DNode) :
    sameFileContent src d = true ↔
      dnodeSize d = src.size ∧ dnodeMode d = src.mode ∧ dnodeContent d = src.content := by
  simp [sameFileContent, Bool.and_eq_true, beq_iff_eq]

/-- Claim C2, counterexample: a move whose source is itself a symlink is
not rejected when the destination exists with identical size, mode and
content; the program prints "(already installed)" and still relocates the
symlink. -/
theorem c2_counterexample :
    (Source.mk ⟨false, false, 0o755⟩ 4 [1, 2, 3, 4] ["s", "x"] (some true) false).lstatSym
        = some true ∧
    validSource (Source.mk ⟨false, false, 0o755⟩ 4 [1, 2, 3, 4] ["s", "x"] (some true) false) ∧
    moveOp (Source.mk ⟨false, false, 0o755⟩ 4 [1, 2, 3, 4] ["s", "x"] (some true) false)
        (.ok (.file 0o755 4 [1, 2, 3, 4])) = (.alreadyInstalled, true) :=
  ⟨rfl, by decide, by decide⟩

/-- Claim C2 (amended): in move placement mode a symlink source is rejected
with the symlink-specific error, and nothing is relocated, exactly when the
destination does not exist; when the destination exists the symlink check
is skipped: identical content still relocates the source, differing content
yields a generic conflict error without relocation. -/
theorem c2_move_symlink_source (src : Source) (d : DNode) (hsym : src.lstatSym = some true) :
    moveOp src .notExist = (.symlinkRejected, false) ∧
    (sameFileContent src d = true → moveOp src (.ok d) = (.alreadyInstalled, true)) ∧
    (sameFileContent src d = false → moveOp src (.ok d) = (.conflict, false)) := by
  refine ⟨by simp [moveOp, hsym], fun h => by simp [moveOp, h], fun h => by simp [moveOp, h]⟩

theorem c2_move_symlink_source_witness :
    (Source.mk ⟨false, false, 0o755⟩ 4 [1, 2, 3, 4] ["s", "x"] (some true) false).lstatSym
        = some true ∧
    moveOp (Source.mk ⟨false, false, 0o755⟩ 4 [1, 2, 3, 4] ["s", "x"] (some true) false)
        .notExist = (.symlinkRejected, false) :=
  ⟨rfl, (c2_move_symlink_source _ (.file 0 0 []) rfl).1⟩

/-- Claim C3: a second install of the same source without force is an
"already installed" no-op for symlink mode (the stored text equals the
recomputed relative target) and for copy mode (the copy compares equal),
while move mode, on a destination with identical content, reports "already
installed" but still relocates the source. -/
theorem c3_idempotent_second_run (bin : AbsPath) (src : Source) (d : DNode)
    (hs : validSource src) (hd : sameFileContent src d = true) :
    symlinkOp bin src .notExist =
      (.created, .ok (.link 0 0 ⟨false, relPath bin src.absTarget⟩ src.content)) ∧
    symlinkOp bin src (.ok (.link 0 0 ⟨false, relPath bin src.absTarget⟩ src.content)) =
      (.alreadyInstalled, .ok (.link 0 0 ⟨false, relPath bin src.absTarget⟩ src.content)) ∧
    copyOp src .notExist = (.created, true, .ok (.file src.mode.perm src.size src.content)) ∧
    copyOp src (.ok (.file src.mode.perm src.size src.content)) =
      (.alreadyInstalled, false, .ok (.file src.mode.perm src.size src.content)) ∧
    moveOp src (.ok d) = (.alreadyInstalled, true) := by
  obtain ⟨⟨msym, mdir, mperm⟩, ssz, sct, stgt, sls, shid⟩ := src
  obtain ⟨hsym, hdir, hex, hhid⟩ := hs
  subst hsym hdir hhid
  refine ⟨rfl, by simp [symlinkOp], rfl, ?_, by simp [moveOp, hd]⟩
  simp [copyOp, sameFileContent, dnodeSize, dnodeMode, dnodeContent]

theorem c3_idempotent_second_run_witness :
    validSource (Source.mk ⟨false, false, 0o755⟩ 2 [7, 8] ["u", "a"] (some false) false) ∧
    moveOp (Source.mk ⟨false, false, 0o755⟩ 2 [7, 8] ["u", "a"] (some false) false)
      (.ok (.file 0o755 2 [7, 8])) = (.alreadyInstalled, true) :=
  ⟨by decide,
   (c3_idempotent_second_run ["b"] _ (.file 0o755 2 [7, 8]) (by decide) (by decide)).2.2.2.2⟩

/-- Claim C4: in copy mode with an existing destination file, agreement in
size, permission bits and whole-file byte content makes the operation an
"already installed" no-op with no cp run; any disagreement makes it a
conflict error, also with no cp run. -/
theorem c4_copy_existing_dest (src : Source) (p s : Nat) (c : List Nat)
    (hs : validSource src) :
    ((s = src.size ∧ p = src.mode.perm ∧ c = src.content) →
      copyOp src (.ok (.file p s c)) = (.alreadyInstalled, false, .ok (.file p s c))) ∧
    (¬(s = src.size ∧ p = src.mode.perm ∧ c = src.content) →
      copyOp src (.ok (.file p s c)) = (.conflict, false, .ok (.file p s c))) := by
  obtain ⟨⟨msym, mdir, mperm⟩, ssz, sct, stgt, sls, shid⟩ := src
  obtain ⟨hsym, hdir, hex, hhid⟩ := hs
  subst hsym hdir hhid
  constructor
  · rintro ⟨h1, h2, h3⟩
    subst h1; subst h2; subst h3
    simp [copyOp, sameFileContent, dnodeSize, dnodeMode, dnodeContent]
  · intro h
    have hf : sameFileContent ⟨⟨false, false, mperm⟩, ssz, sct, stgt, sls, false⟩
        (DNode.file p s c) = false := by
      rw [Bool.eq_false_iff]
      intro htrue
      simp only [sameFileContent, dnodeSize, dnodeMode, dnodeContent, Bool.and_eq_true,
        beq_iff_eq, Mode.mk.injEq, true_and] at htrue
      exact h ⟨htrue.1, htrue.2.1, htrue.2.2⟩
    simp [copyOp, hf]

theorem c4_copy_existing_dest_witness :
    validSource (Source.mk ⟨false, false, 0o755⟩ 2 [7, 8] ["u", "a"] (some false) false) ∧
    copyOp (Source.mk ⟨false, false, 0o755⟩ 2 [7, 8] ["u", "a"] (some false) false)
        (.ok (.file 0o755 2 [7, 9])) =
      (.conflict, false, .ok (.file 0o755 2 [7, 9])) :=
  ⟨by decide,
   (c4_copy_existing_dest _ 0o755 2 [7, 9] (by decide)).2 (by decide)⟩

/-- Claim C9: when the destination of a copy or move is itself a symlink,
sameFileContent is false (the destination is examined with os.Lstat, so its
mode carries the symlink type bit while the followed source mode never
does), and the outcome is a conflict error, never "already installed". -/
theorem c9_symlink_dest_conflict (src : Source) (p s : Nat) (t : LinkText) (r : List Nat)
    (hs : validSource src) :
    sameFileContent src (.link p s t r) = false ∧
    copyOp src (.ok (.link p s t r)) = (.conflict, false, .ok (.link p s t r)) ∧
    moveOp src (.ok (.link p s t r)) = (.conflict, false) := by
  obtain ⟨⟨msym, mdir, mperm⟩, ssz, sct, stgt, sls, shid⟩ := src
  obtain ⟨hsym, hdir, hex, hhid⟩ := hs
  subst hsym hdir hhid
  have hf : sameFileContent ⟨⟨false, false, mperm⟩, ssz, sct, stgt, sls, false⟩
      (DNode.link p s t r) = false := by
    rw [Bool.eq_false_iff]
    intro htrue
    simp only [sameFileContent, dnodeSize, dnodeMode, dnodeContent, Bool.and_eq_true,
      beq_iff_eq, Mode.mk.injEq] at htrue
    exact absurd htrue.2.1.1 (by decide)
  exact ⟨hf, by simp [copyOp, hf], by simp [moveOp, hf]⟩

theorem c9_symlink_dest_conflict_witness :
    validSource (Source.mk ⟨false, false, 0o755⟩ 2 [7, 8] ["u", "a"] (some false) false) ∧
    moveOp (Source.mk ⟨false, false, 0o755⟩ 2 [7, 8] ["u", "a"] (some false) false)
        (.ok (.link 0o755 2 ⟨false, ["u", "a"]⟩ [7, 8])) = (.conflict, false) :=
  ⟨by decide,
   (c9_symlink_dest_conflict _ 0o755 2 ⟨false, ["u", "a"]⟩ [7, 8] (by decide)).2.2⟩

/-! ## Path lemmas and the symlink round trip (claim C7) -/

theorem cleanAppend_cons (base : AbsPath) (c : String) (rest : List String) :
    cleanAppend base (c :: rest) =
      cleanAppend (if c = "." then base else if c = ".." then base.dropLast else base ++ [c])
        rest := rfl

theorem cleanAppend_clean (rest : List String) (h : cleanComps rest) :
    ∀ base, cleanAppend base rest = base ++ rest := by
  induction rest with
  | nil => intro base; simp [cleanAppend]
  | cons c cs ih =>
    intro base
    obtain ⟨h1, h2⟩ := h c (by simp)
    rw [cleanAppend_cons, if_neg h1, if_neg h2,
      ih (fun x hx => h x (by simp [hx])) (base ++ [c])]
    simp

theorem cleanAppend_replicate (k : Nat) (base : AbsPath) (rest : List String) :
    cleanAppend base (List.replicate k ".." ++ rest) =
      cleanAppend (base.take (base.length - k)) rest := by
  induction k generalizing base with
  | zero => simp
  | succ n ih =>
    rw [List.replicate_succ]
    simp only [List.cons_append]
    rw [cleanAppend_cons, if_neg (by decide), if_pos rfl, ih base.dropLast,
      List.length_dropLast, List.dropLast_eq_take, List.take_take]
    congr 2
    omega

theorem commonPrefixLen_le_left : ∀ a b : List String, commonPrefixLen a b ≤ a.length := by
  intro a
  induction a with
  | nil => intro b; cases b <;> simp [commonPrefixLen]
  | cons x xs ih =>
    intro b
    cases b with
    | nil => simp [commonPrefixLen]
    | cons y ys =>
      by_cases hxy : x = y
      · simpa [commonPrefixLen, hxy] using ih ys
      · simp [commonPrefixLen, hxy]

theorem take_commonPrefixLen_eq : ∀ a b : List String,
    a.take (commonPrefixLen a b) = b.take (commonPrefixLen a b) := by
  intro a
  induction a with
  | nil => intro b; cases b <;> simp [commonPrefixLen]
  | cons x xs ih =>
    intro b
    cases b with
    | nil => simp [commonPrefixLen]
    | cons y ys =>
      by_cases hxy : x = y
      · simp [commonPrefixLen, hxy, ih ys]
      · simp [commonPrefixLen, hxy]

/-- Joining filepath.Rel's result back onto the base gives back the (clean)
target: the correctness of the symlink placement's stored text. -/
theorem relPath_roundtrip (base targ : AbsPath) (ht : cleanComps targ) :
    cleanAppend base (relPath base targ) = targ := by
  unfold relPath
  rw [cleanAppend_replicate]
  have hp : base.length - (base.length - commonPrefixLen base targ) =
      commonPrefixLen base targ := by
    have := commonPrefixLen_le_left base targ
    omega
  rw [hp, cleanAppend_clean _ (fun c hc => ht c (List.drop_subset _ _ hc)),
    take_commonPrefixLen_eq]
  exact List.take_append_drop _ _

/-- Claim C7: a successful symlink install (freshly created or "already
installed") leaves at the destination a symlink storing the relative target
computed by filepath.Rel, and resolving that stored text against the
managed directory with ensureAbs yields exactly the original absolute
source path. -/
theorem c7_symlink_round_trip (bin : AbsPath) (src : Source) (dl : Lst) (o : Outcome) (d : Lst)
    (ht : cleanComps src.absTarget)
    (h : symlinkOp bin src dl = (o, d))
    (ho : o = .created ∨ o = .alreadyInstalled) :
    ∃ p s r, d = .ok (.link p s ⟨false, relPath bin src.absTarget⟩ r) ∧
      ensureAbs bin ⟨false, relPath bin src.absTarget⟩ = src.absTarget := by
  have hres : ensureAbs bin ⟨false, relPath bin src.absTarget⟩ = src.absTarget := by
    simpa [ensureAbs] using relPath_roundtrip bin src.absTarget ht
  cases dl with
  | notExist =>
    refine ⟨0, 0, src.content, ?_, hres⟩
    simp only [symlinkOp] at h
    exact (Prod.mk.injEq _ _ _ _ ▸ h).2.symm
  | err =>
    exfalso
    simp only [symlinkOp] at h
    obtain ⟨h1, _⟩ := Prod.mk.injEq _ _ _ _ ▸ h
    rcases ho with h2 | h2 <;> rw [h2] at h1 <;> cases h1
  | ok dn =>
    cases dn with
    | link p s t r =>
      by_cases htr : t = ⟨false, relPath bin src.absTarget⟩
      · refine ⟨p, s, r, ?_, hres⟩
        simp only [symlinkOp, if_pos htr] at h
        injection h with h1 h2
        subst htr
        exact h2.symm
      · exfalso
        simp only [symlinkOp, if_neg htr] at h
        obtain ⟨h1, _⟩ := Prod.mk.injEq _ _ _ _ ▸ h
        rcases ho with h2 | h2 <;> rw [h2] at h1 <;> cases h1
    | file p s c =>
      exfalso
      simp only [symlinkOp] at h
      obtain ⟨h1, _⟩ := Prod.mk.injEq _ _ _ _ ▸ h
      rcases ho with h2 | h2 <;> rw [h2] at h1 <;> cases h1
    | dnode p =>
      exfalso
      simp only [symlinkOp] at h
      obtain ⟨h1, _⟩ := Prod.mk.injEq _ _ _ _ ▸ h
      rcases ho with h2 | h2 <;> rw [h2] at h1 <;> cases h1

theorem c7_symlink_round_trip_witness :
    ensureAbs ["b"] ⟨false, ["..", "u", "a"]⟩ = ["u", "a"] ∧
    (symlinkOp ["b"] (Source.mk ⟨false, false, 0o755⟩ 2 [7, 8] ["u", "a"] (some false) false)
      .notExist).2 = .ok (.link 0 0 ⟨false, ["..", "u", "a"]⟩ [7, 8]) := by
  obtain ⟨p, s, r, h1, h2⟩ :=
    c7_symlink_round_trip ["b"]
      (Source.mk ⟨false, false, 0o755⟩ 2 [7, 8] ["u", "a"] (some false) false)
      .notExist .created
      (.ok (.link 0 0 ⟨false, ["..", "u", "a"]⟩ [7, 8]))
      (by decide) (by decide) (Or.inl rfl)
  exact ⟨h2, by decide⟩

/-! ## The matcher's deduplication (claim C6) -/

theorem performInner_spec (ms : List MatchR) : ∀ seen : List String,
    ((performInner seen ms).1.map MatchR.name).Nodup ∧
    (∀ n ∈ (performInner seen ms).1.map MatchR.name, n ∉ seen) ∧
    (∀ n, n ∈ (performInner seen ms).2 ↔
      n ∈ seen ∨ n ∈ (performInner seen ms).1.map MatchR.name) := by
  induction ms with
  | nil => intro seen; simp [performInner]
  | cons m ms ih =>
    intro seen
    by_cases hm : m.name ∈ seen
    · simpa only [performInner, if_pos hm] using ih seen
    · simp only [performInner, if_neg hm]
      obtain ⟨h1, h2, h3⟩ := ih (m.name :: seen)
      refine ⟨?_, ?_, ?_⟩
      · simp only [List.map_cons, List.nodup_cons]
        exact ⟨fun hmem => (h2 _ hmem) (by simp), h1⟩
      · intro n hn
        simp only [List.map_cons, List.mem_cons] at hn
        rcases hn with rfl | hn
        · exact hm
        · exact fun hns => (h2 n hn) (by simp [hns])
      · intro n
        rw [h3 n]
        simp only [List.map_cons, List.mem_cons]
        tauto

theorem performGo_spec (reg : Registry) (dOnly tOnly q : Bool) (args : List Arg) :
    ∀ seen : List String,
    ((performGo reg dOnly tOnly q seen args).1.map MatchR.name).Nodup ∧
    ∀ n ∈ (performGo reg dOnly tOnly q seen args).1.map MatchR.name, n ∉ seen := by
  induction args with
  | nil => intro seen; simp [performGo]
  | cons a rest ih =>
    intro seen
    simp only [performGo]
    obtain ⟨hi1, hi2, hi3⟩ := performInner_spec (find reg dOnly tOnly a) seen
    obtain ⟨hr1, hr2⟩ := ih (performInner seen (find reg dOnly tOnly a)).2
    constructor
    · rw [List.map_append, List.nodup_append]
      refine ⟨hi1, hr1, fun n hn hn2 => ?_⟩
      exact (hr2 n hn2) ((hi3 n).mpr (Or.inr hn))
    · intro n hn
      rw [List.map_append, List.mem_append] at hn
      rcases hn with hn | hn
      · exact hi2 n hn
      · exact fun hns => (hr2 n hn) ((hi3 n).mpr (Or.inl hns))

/-- Claim C6: over any list of argument strings, list and remove pass each
concrete registry entry to the per-entry action at most once — the names of
the matches acted on by perform contain no duplicate, even when one entry
is reached through several arguments or through both the name/path rules
and the target rule. -/
theorem c6_perform_dedup (reg : Registry) (directOnly targetOnly ignoreNoMatch : Bool)
    (args : List Arg) :
    ((perform reg directOnly targetOnly ignoreNoMatch args).1.map MatchR.name).Nodup :=
  (performGo_spec reg directOnly targetOnly ignoreNoMatch args []).1

/-! ## Doctor's treatment of hidden directories (claim C10) -/

/-- Claim C10: main.go's doctor reports a hidden directory as an unexpected
directory, because the directory check runs before the hidden-entry skip;
hidden entries are exempt from all checks only when they are not
directories. -/
theorem c10_hidden_dir (bin : AbsPath) (l1 l2 : List Entry) (e : Entry)
    (hd : e.ftype = .dirT) (_hh : isHidden e.name = true) :
    Issue.unexpectedDir (bin ++ [e.name]) ∈ doctorMain bin (l1 ++ e :: l2) ∧
    ∀ e2 : Entry, e2.ftype ≠ .dirT → isHidden e2.name = true → doctorMain bin [e2] = [] := by
  constructor
  · induction l1 with
    | nil => simp [doctorMain, mainStep, hd]
    | cons a as ih =>
      simp only [List.cons_append, doctorMain, List.mem_append]
      exact Or.inr ih
  · intro e2 h1 h2
    simp [doctorMain, mainStep, h1, h2]

theorem c10_hidden_dir_witness :
    Issue.unexpectedDir (["b"] ++ [".d"]) ∈
      doctorMain ["b"] ([] ++ Entry.mk ".d" .dirT .notExist none :: []) :=
  (c10_hidden_dir ["b"] [] [] (Entry.mk ".d" .dirT .notExist none) rfl (by decide)).1

/-! ## Prune over the live directory (claims C5 and C8) -/

theorem alookup_self {α β : Type} [DecidableEq α] (l : List (α × β)) :
    (l.map Prod.fst).Nodup → ∀ e ∈ l, alookup l e.1 = some e.2 := by
  induction l with
  | nil => intro _ e he; cases he
  | cons p r ih =>
    obtain ⟨k, v⟩ := p
    intro hnd e he
    have hnd' : (k :: r.map Prod.fst).Nodup := by simpa using hnd
    obtain ⟨hhead, htail⟩ := List.nodup_cons.mp hnd'
    rcases List.mem_cons.mp he with rfl | he'
    · simp [alookup]
    · have hne : e.1 ≠ k := fun hEq => hhead (hEq ▸ List.mem_map_of_mem Prod.fst he')
      rw [alookup, if_neg hne]
      exact ih htail e he'

theorem alookup_aerase_self {α β : Type} [DecidableEq α] (l : List (α × β)) (n : α) :
    alookup (aerase l n) n = none := by
  induction l with
  | nil => rfl
  | cons p r ih =>
    obtain ⟨k, v⟩ := p
    by_cases hk : k = n
    · simpa [aerase, hk] using ih
    · simp [aerase, hk, alookup, Ne.symm hk, ih]

theorem alookup_aerase_ne {α β : Type} [DecidableEq α] (l : List (α × β)) (n a : α)
    (h : a ≠ n) : alookup (aerase l n) a = alookup l a := by
  induction l with
  | nil => rfl
  | cons p r ih =>
    obtain ⟨k, v⟩ := p
    by_cases hk : k = n
    · subst hk
      simp [aerase, alookup, h, ih]
    · simp only [aerase, if_neg hk, alookup]
      split
      · rfl
      · exact ih

theorem aerase_eq_filter {α β : Type} [DecidableEq α] (l : List (α × β)) (n : α) :
    aerase l n = l.filter (fun e => !decide (e.1 = n)) := by
  induction l with
  | nil => rfl
  | cons p r ih =>
    obtain ⟨k, v⟩ := p
    by_cases hk : k = n
    · simp [aerase, hk, ih]
    · simp [aerase, hk, ih]

theorem asBinEntry_append (bin : AbsPath) (n : String) :
    asBinEntry bin (bin ++ [n]) = some n := by
  simp [asBinEntry, List.getLast?_concat, List.dropLast_concat]

theorem asBinEntry_eq_some {bin p : AbsPath} {n : String} (h : asBinEntry bin p = some n) :
    p = bin ++ [n] := by
  unfold asBinEntry at h
  cases hp : p.getLast? with
  | none => rw [hp] at h; cases h
  | some m =>
    rw [hp] at h
    have h' : (if p.dropLast = bin then some m else none) = some n := h
    by_cases hd : p.dropLast = bin
    · rw [if_pos hd] at h'
      injection h' with h''
      subst h''
      rw [← hd]
      exact (List.dropLast_append_getLast? _ (Option.mem_def.mpr hp)).symm
    · rw [if_neg hd] at h'; cases h'

theorem statFollow_mono (bin : AbsPath) (ext : List AbsPath) (fs : FS) :
    ∀ f g : Nat, f ≤ g → ∀ p : AbsPath, statFollow bin ext fs f p ≠ .errLoop →
      statFollow bin ext fs g p = statFollow bin ext fs f p := by
  intro f
  induction f with
  | zero => intro g hg p hp; exact absurd rfl hp
  | succ k ih =>
    intro g hg p hp
    obtain ⟨g', rfl⟩ : ∃ g', g = g' + 1 := ⟨g - 1, by omega⟩
    cases hab : asBinEntry bin p with
    | none => simp [statFollow, hab]
    | some m =>
      cases hl : alookup fs m with
      | none => simp [statFollow, hab, hl]
      | some node =>
        cases node with
        | regular e => simp [statFollow, hab, hl]
        | dirN => simp [statFollow, hab, hl]
        | symlinkN t =>
          have hp' : statFollow bin ext fs k (ensureAbs bin t) ≠ .errLoop := by
            simpa [statFollow, hab, hl] using hp
          simp only [statFollow, hab, hl]
          exact ih g' (by omega) _ hp'

theorem statFollow_aerase_notExist (bin : AbsPath) (ext : List AbsPath) (fs : FS) (r : String) :
    ∀ (f : Nat) (p : AbsPath), statFollow bin ext fs f p = .notExist →
      statFollow bin ext (aerase fs r) f p = .notExist := by
  intro f
  induction f with
  | zero => intro p h; cases h
  | succ k ih =>
    intro p h
    cases hab : asBinEntry bin p with
    | none =>
      simp only [statFollow, hab] at h ⊢
      exact h
    | some m =>
      by_cases hm : m = r
      · subst hm
        simp [statFollow, hab, alookup_aerase_self]
      · simp only [statFollow, hab, alookup_aerase_ne fs r m hm] at h ⊢
        cases hl : alookup fs m with
        | none => rfl
        | some node =>
          rw [hl] at h
          cases node with
          | regular e => exact StatO.noConfusion h
          | dirN => exact StatO.noConfusion h
          | symlinkN t => exact ih _ h

theorem statFollow_aerase_found (bin : AbsPath) (ext : List AbsPath) (fs : FS) (r : String)
    (F : Nat) (hr : statFollow bin ext fs F (bin ++ [r]) = .notExist) :
    ∀ f : Nat, f ≤ F → ∀ p : AbsPath, statFollow bin ext fs f p = .found →
      statFollow bin ext (aerase fs r) f p = .found := by
  intro f
  induction f with
  | zero => intro hf p h; cases h
  | succ k ih =>
    intro hf p h
    cases hab : asBinEntry bin p with
    | none =>
      simp only [statFollow, hab] at h ⊢
      exact h
    | some m =>
      by_cases hm : m = r
      · exfalso
        subst hm
        have hfound : statFollow bin ext fs F p = .found := by
          rw [statFollow_mono bin ext fs (k + 1) F hf p (by rw [h]; intro hc; cases hc)]
          exact h
        rw [asBinEntry_eq_some hab] at hfound
        rw [hfound] at hr
        cases hr
      · simp only [statFollow, hab, alookup_aerase_ne fs r m hm] at h ⊢
        cases hl : alookup fs m with
        | none =>
          rw [hl] at h
          exact StatO.noConfusion h
        | some node =>
          rw [hl] at h
          cases node with
          | regular e => exact h
          | dirN => exact h
          | symlinkN t => exact ih (by omega) _ h

theorem eraseList_cons (fs : FS) (n : String) (ns : List String) :
    eraseList fs (n :: ns) = eraseList (aerase fs n) ns := rfl

theorem eraseList_eq_filter (ns : List String) : ∀ l : FS,
    eraseList l ns = l.filter (fun e => !decide (e.1 ∈ ns)) := by
  induction ns with
  | nil => intro l; simp [eraseList]
  | cons n ns ih =>
    intro l
    rw [eraseList_cons, ih, aerase_eq_filter, List.filter_filter]
    congr 1
    funext e
    simp only [List.mem_cons]
    by_cases h1 : e.1 = n <;> by_cases h2 : e.1 ∈ ns <;> simp [h1, h2]

/-- The prune pass over any suffix of the scan: while the live directory
agrees with the snapshot on every determined stat, prune removes exactly the
snapshot-broken non-hidden symlink entries, records no errors, never aborts,
and the live checks coincide with the snapshot checks throughout. -/
theorem pruneGo_spec (bin : AbsPath) (ext : List AbsPath) (fuel : Nat) (fs0 : FS) :
    ∀ (rest : List (String × FsNode)) (fsCur : FS),
      (∀ e ∈ rest, e ∈ fs0) →
      (∀ e ∈ rest, alookup fsCur e.1 = some e.2) →
      (∀ p : AbsPath, statFollow bin ext fs0 fuel p ≠ .errLoop →
        statFollow bin ext fsCur fuel p = statFollow bin ext fs0 fuel p) →
      (rest.map Prod.fst).Nodup →
      (∀ e ∈ rest, statFollow bin ext fs0 fuel (bin ++ [e.1]) ≠ .errLoop) →
      pruneGo bin ext fuel rest fsCur =
        ⟨(rest.filter (pruneTarget bin ext fs0 fuel)).map Prod.fst, [], false,
         eraseList fsCur ((rest.filter (pruneTarget bin ext fs0 fuel)).map Prod.fst)⟩ := by
  intro rest
  induction rest with
  | nil =>
    intro fsCur _ _ _ _ _
    simp [pruneGo, eraseList]
  | cons e rest ih =>
    obtain ⟨n, node⟩ := e
    intro fsCur hin hlk hequiv hnd hdet
    have hin' : ∀ e ∈ rest, e ∈ fs0 := fun e he => hin e (List.mem_cons_of_mem _ he)
    have hnd0 := hnd
    simp only [List.map_cons, List.nodup_cons] at hnd0
    have hnmem : n ∉ rest.map Prod.fst := hnd0.1
    have hnd' : (rest.map Prod.fst).Nodup := hnd0.2
    have hdet' : ∀ e ∈ rest, statFollow bin ext fs0 fuel (bin ++ [e.1]) ≠ .errLoop :=
      fun e he => hdet e (List.mem_cons_of_mem _ he)
    by_cases hskip : (isHidden n || !isLinkNode node) = true
    · have hpt : pruneTarget bin ext fs0 fuel (n, node) = false := by
        rcases (Bool.or_eq_true _ _).mp hskip with h | h
        · simp [pruneTarget, h]
        · have hln : isLinkNode node = false := by
            cases hi : isLinkNode node
            · rfl
            · rw [hi] at h; cases h
          simp [pruneTarget, hln]
      rw [pruneGo, if_pos hskip,
        ih fsCur hin' (fun e he => hlk e (List.mem_cons_of_mem _ he)) hequiv hnd' hdet']
      simp [List.filter_cons, hpt]
    · have hs2 : (isHidden n || !isLinkNode node) = false := by
        cases hv : (isHidden n || !isLinkNode node)
        · rfl
        · exact absurd hv hskip
      rw [Bool.or_eq_false_iff] at hs2
      obtain ⟨hhid, hl2⟩ := hs2
      have hlink : isLinkNode node = true := by
        cases hi : isLinkNode node
        · rw [hi] at hl2; cases hl2
        · rfl
      obtain ⟨t, rfl⟩ : ∃ t, node = FsNode.symlinkN t := by
        cases node with
        | symlinkN t => exact ⟨t, rfl⟩
        | regular e => exact absurd hlink (by simp [isLinkNode])
        | dirN => exact absurd hlink (by simp [isLinkNode])
      have hlk0 : alookup fsCur n = some (FsNode.symlinkN t) :=
        hlk _ (List.mem_cons_self _ _)
      have hdet0 : statFollow bin ext fs0 fuel (bin ++ [n]) ≠ .errLoop :=
        hdet _ (List.mem_cons_self _ _)
      have hlive : statFollow bin ext fsCur fuel (bin ++ [n]) =
          statFollow bin ext fs0 fuel (bin ++ [n]) := hequiv _ hdet0
      cases hsnap : statFollow bin ext fs0 fuel (bin ++ [n]) with
      | errLoop => exact absurd hsnap hdet0
      | found =>
        have hstep : pruneGo bin ext fuel ((n, FsNode.symlinkN t) :: rest) fsCur =
            pruneGo bin ext fuel rest fsCur := by
          rw [pruneGo, if_neg hskip, hlk0, hlive, hsnap]
        rw [hstep,
          ih fsCur hin' (fun e he => hlk e (List.mem_cons_of_mem _ he)) hequiv hnd' hdet']
        have hpt : pruneTarget bin ext fs0 fuel (n, FsNode.symlinkN t) = false := by
          simp [pruneTarget, hsnap]
        simp [List.filter_cons, hpt]
      | notExist =>
        have hstep : pruneGo bin ext fuel ((n, FsNode.symlinkN t) :: rest) fsCur =
            ⟨n :: (pruneGo bin ext fuel rest (aerase fsCur n)).removed,
             (pruneGo bin ext fuel rest (aerase fsCur n)).errs,
             (pruneGo bin ext fuel rest (aerase fsCur n)).aborted,
             (pruneGo bin ext fuel rest (aerase fsCur n)).fs⟩ := by
          rw [pruneGo, if_neg hskip, hlk0, hlive, hsnap]
        have hcurNE : statFollow bin ext fsCur fuel (bin ++ [n]) = .notExist := by
          rw [hlive, hsnap]
        have hlkE : ∀ e ∈ rest, alookup (aerase fsCur n) e.1 = some e.2 := by
          intro e he
          have hne : e.1 ≠ n := fun hEq => hnmem (hEq ▸ List.mem_map_of_mem Prod.fst he)
          rw [alookup_aerase_ne _ _ _ hne]
          exact hlk e (List.mem_cons_of_mem _ he)
        have hequivE : ∀ p : AbsPath, statFollow bin ext fs0 fuel p ≠ .errLoop →
            statFollow bin ext (aerase fsCur n) fuel p = statFollow bin ext fs0 fuel p := by
          intro p hp
          have h0 := hequiv p hp
          cases hsp : statFollow bin ext fs0 fuel p with
          | errLoop => exact absurd hsp hp
          | found =>
            rw [hsp] at h0
            exact statFollow_aerase_found bin ext fsCur n fuel hcurNE fuel le_rfl p h0
          | notExist =>
            rw [hsp] at h0
            exact statFollow_aerase_notExist bin ext fsCur n fuel p h0
        rw [hstep, ih (aerase fsCur n) hin' hlkE hequivE hnd' hdet']
        have hpt : pruneTarget bin ext fs0 fuel (n, FsNode.symlinkN t) = true := by
          simp [pruneTarget, hhid, isLinkNode, hsnap]
        simp [List.filter_cons, hpt, eraseList_cons]

theorem doctorMain_append (bin : AbsPath) (l1 l2 : List Entry) :
    doctorMain bin (l1 ++ l2) = doctorMain bin l1 ++ doctorMain bin l2 := by
  induction l1 with
  | nil => rfl
  | cons e l1 ih => simp [doctorMain, ih, List.append_assoc]

/-- Claim C5: prune removes exactly the non-hidden symlink entries whose
resolved target does not exist, leaves every other entry unchanged, and the
removal set matches the one determined by the initial scan snapshot —
removing one entry never changes another entry's evaluation in the same
pass (the code re-checks live, but live and snapshot checks provably
coincide as long as no stat fails with an error other than not-exist). -/
theorem c5_prune_snapshot (bin : AbsPath) (ext : List AbsPath) (fuel : Nat) (fs0 : FS)
    (hnd : (fs0.map Prod.fst).Nodup)
    (hdet : ∀ e ∈ fs0, statFollow bin ext fs0 fuel (bin ++ [e.1]) ≠ .errLoop) :
    pruneGo bin ext fuel fs0 fs0 =
      ⟨(fs0.filter (pruneTarget bin ext fs0 fuel)).map Prod.fst, [], false,
       fs0.filter (fun e => !pruneTarget bin ext fs0 fuel e)⟩ := by
  rw [pruneGo_spec bin ext fuel fs0 fs0 fs0 (fun e he => he) (alookup_self fs0 hnd)
    (fun p _ => rfl) hnd hdet]
  congr 1
  rw [eraseList_eq_filter]
  apply List.filter_congr
  intro e he
  congr 1
  by_cases hp : pruneTarget bin ext fs0 fuel e = true
  · rw [hp]
    exact decide_eq_true
      (List.mem_map_of_mem Prod.fst (List.mem_filter.mpr ⟨he, hp⟩))
  · have hp' : pruneTarget bin ext fs0 fuel e = false := by
      cases hv : pruneTarget bin ext fs0 fuel e
      · rfl
      · exact absurd hv hp
    rw [hp']
    refine decide_eq_false ?_
    intro hmem
    obtain ⟨e', he'mem, heq⟩ := List.mem_map.mp hmem
    obtain ⟨he'0, hpe'⟩ := List.mem_filter.mp he'mem
    have hee : e' = e := List.inj_on_of_nodup_map hnd he'0 he heq
    rw [hee] at hpe'
    rw [hpe'] at hp'
    cases hp'

theorem c5_prune_snapshot_witness :
    pruneGo ["b"] [["t"]] 4
        [("x", FsNode.symlinkN ⟨true, ["t"]⟩), ("y", FsNode.symlinkN ⟨true, ["gone"]⟩),
         ("z", FsNode.regular true)]
        [("x", FsNode.symlinkN ⟨true, ["t"]⟩), ("y", FsNode.symlinkN ⟨true, ["gone"]⟩),
         ("z", FsNode.regular true)] =
      ⟨(([("x", FsNode.symlinkN ⟨true, ["t"]⟩), ("y", FsNode.symlinkN ⟨true, ["gone"]⟩),
          ("z", FsNode.regular true)] : FS).filter
            (pruneTarget ["b"] [["t"]]
              [("x", FsNode.symlinkN ⟨true, ["t"]⟩), ("y", FsNode.symlinkN ⟨true, ["gone"]⟩),
               ("z", FsNode.regular true)] 4)).map Prod.fst, [], false,
       ([("x", FsNode.symlinkN ⟨true, ["t"]⟩), ("y", FsNode.symlinkN ⟨true, ["gone"]⟩),
         ("z", FsNode.regular true)] : FS).filter
           (fun e => !pruneTarget ["b"] [["t"]]
             [("x", FsNode.symlinkN ⟨true, ["t"]⟩), ("y", FsNode.symlinkN ⟨true, ["gone"]⟩),
              ("z", FsNode.regular true)] 4 e)⟩ :=
  c5_prune_snapshot ["b"] [["t"]] 4 _ (by decide) (by decide)

theorem listAll_append (st : Bool) (l1 l2 : List (String × AbsPath × StatRes)) :
    listAll st (l1 ++ l2) =
      ((listAll st l1).1 ++ (listAll st l2).1, (listAll st l1).2 ++ (listAll st l2).2) := by
  induction l1 with
  | nil => simp [listAll]
  | cons e l1 ih =>
    obtain ⟨name, tgt, stt⟩ := e
    simp [listAll, ih, List.append_assoc]

/-- Claim C8 (amended): during doctor and list-all, every per-entry error
is recorded and processing continues through all remaining entries; in
prune a readlink failure is likewise recorded with the remaining entries
still processed, and the whole scan completes when no entry's stat fails
with an error other than not-exist — but such a stat failure (e.g. a
symlink loop) is fatal: prune aborts immediately, contrary to the claim as
stated. -/
theorem c8_per_entry_errors (bin : AbsPath) (ext : List AbsPath) (fuel : Nat) (fs0 : FS)
    (hnd : (fs0.map Prod.fst).Nodup)
    (hdet : ∀ e ∈ fs0, statFollow bin ext fs0 fuel (bin ++ [e.1]) ≠ .errLoop)
    (l1 l2 : List Entry) (showTarget : Bool)
    (ll1 ll2 : List (String × AbsPath × StatRes)) :
    (pruneGo bin ext fuel fs0 fs0).aborted = false ∧
    (pruneGo bin ext fuel fs0 fs0).errs = [] ∧
    doctorMain bin (l1 ++ l2) = doctorMain bin l1 ++ doctorMain bin l2 ∧
    listAll showTarget (ll1 ++ ll2) =
      ((listAll showTarget ll1).1 ++ (listAll showTarget ll2).1,
       (listAll showTarget ll1).2 ++ (listAll showTarget ll2).2) ∧
    (∀ (name : String) (tgt : AbsPath), tgt ≠ [] →
      listProgram true name tgt .otherErr = (none, [name])) ∧
    (∀ (n : String) (node : FsNode) (rest : List (String × FsNode)) (fs : FS),
      isHidden n = false → isLinkNode node = true → alookup fs n = none →
      pruneGo bin ext fuel ((n, node) :: rest) fs =
        ⟨(pruneGo bin ext fuel rest fs).removed, n :: (pruneGo bin ext fuel rest fs).errs,
         (pruneGo bin ext fuel rest fs).aborted, (pruneGo bin ext fuel rest fs).fs⟩) := by
  refine ⟨?_, ?_, doctorMain_append bin l1 l2, listAll_append showTarget ll1 ll2, ?_, ?_⟩
  · rw [pruneGo_spec bin ext fuel fs0 fs0 fs0 (fun e he => he) (alookup_self fs0 hnd)
      (fun p _ => rfl) hnd hdet]
  · rw [pruneGo_spec bin ext fuel fs0 fs0 fs0 (fun e he => he) (alookup_self fs0 hnd)
      (fun p _ => rfl) hnd hdet]
  · intro name tgt hne
    have hb : (tgt == ([] : AbsPath)) = false := by
      cases hbv : tgt == ([] : AbsPath)
      · rfl
      · exact absurd (eq_of_beq hbv) hne
    simp [listProgram, hb]
  · intro n node rest fs hh hl hlk
    have hskip : ¬((isHidden n || !isLinkNode node) = true) := by simp [hh, hl]
    rw [pruneGo, if_neg hskip, hlk]

theorem c8_per_entry_errors_witness :
    (pruneGo ["b"] [["t"]] 4 [("y", FsNode.symlinkN ⟨true, ["gone"]⟩)]
      [("y", FsNode.symlinkN ⟨true, ["gone"]⟩)]).aborted = false ∧
    listProgram true "q" ["gone"] .otherErr = (none, ["q"]) := by
  obtain ⟨h1, h2, h3, h4, h5, h6⟩ :=
    c8_per_entry_errors ["b"] [["t"]] 4 [("y", FsNode.symlinkN ⟨true, ["gone"]⟩)]
      (by decide) (by decide) [] [] true [] []
  exact ⟨h1, h5 "q" ["gone"] (by decide)⟩

/-- Claim C8, counterexample: in prune, a per-entry stat failure other than
not-exist (here a symlink loop between entries "a" and "b") is fatal: the
command aborts with nothing removed, and the later entry "c" — a non-hidden
broken symlink that prune would otherwise remove — is never processed. -/
theorem c8_counterexample :
    pruneGo ["b"] [] 8
        [("a", FsNode.symlinkN ⟨false, ["b"]⟩), ("b", FsNode.symlinkN ⟨false, ["a"]⟩),
         ("c", FsNode.symlinkN ⟨true, ["gone"]⟩)]
        [("a", FsNode.symlinkN ⟨false, ["b"]⟩), ("b", FsNode.symlinkN ⟨false, ["a"]⟩),
         ("c", FsNode.symlinkN ⟨true, ["gone"]⟩)] =
      ⟨[], [], true,
       [("a", FsNode.symlinkN ⟨false, ["b"]⟩), ("b", FsNode.symlinkN ⟨false, ["a"]⟩),
        ("c", FsNode.symlinkN ⟨true, ["gone"]⟩)]⟩ ∧
    statFollow ["b"] []
        [("a", FsNode.symlinkN ⟨false, ["b"]⟩), ("b", FsNode.symlinkN ⟨false, ["a"]⟩),
         ("c", FsNode.symlinkN ⟨true, ["gone"]⟩)] 8 (["b"] ++ ["c"]) = .notExist ∧
    isHidden "c" = false := by
  refine ⟨by decide, by decide, by decide⟩

/-! ## Duplicate-target detection in the earlier doctor (claim C1) -/

theorem isValidRel_elim {e : Entry} (hv : isValidRel e = true) :
    e.ftype = .symlinkT ∧ (∃ m, e.stat = .ok m ∧ isExecutable m = true) ∧
      ∃ t, e.link = some t ∧ t.abs = false := by
  obtain ⟨name, ftype, stat, link⟩ := e
  simp only [isValidRel, Bool.and_eq_true, beq_iff_eq] at hv
  obtain ⟨hf, hs, hl⟩ := hv
  refine ⟨hf, ?_, ?_⟩
  · cases stat with
    | ok m => exact ⟨m, rfl, hs⟩
    | notExist => cases hs
    | otherErr => cases hs
  · cases link with
    | some t =>
      refine ⟨t, rfl, ?_⟩
      cases ha : t.abs
      · rfl
      · simp only [ha] at hl
        cases hl
    | none => cases hl

theorem v0Step_valid_dup (bin : AbsPath) (m : List (AbsPath × String)) (e : Entry)
    (hv : isValidRel e = true) (other : String)
    (hl : alookup m (targetOf bin e) = some other) :
    v0Step bin m e = ([.duplicateTarget e.name other (targetOf bin e)], m) := by
  obtain ⟨hf, ⟨mo, hst, hex⟩, ⟨t, hlk, habs⟩⟩ := isValidRel_elim hv
  have hl' : alookup m (ensureAbs bin t) = some other := by
    rw [targetOf, hlk] at hl
    exact hl
  simp [v0Step, hf, hst, hex, hlk, habs, hl', targetOf]

theorem v0Step_valid_new (bin : AbsPath) (m : List (AbsPath × String)) (e : Entry)
    (hv : isValidRel e = true) (hl : alookup m (targetOf bin e) = none) :
    v0Step bin m e = ([], (targetOf bin e, e.name) :: m) := by
  obtain ⟨hf, ⟨mo, hst, hex⟩, ⟨t, hlk, habs⟩⟩ := isValidRel_elim hv
  have hl' : alookup m (ensureAbs bin t) = none := by
    rw [targetOf, hlk] at hl
    exact hl
  simp [v0Step, hf, hst, hex, hlk, habs, hl', targetOf]

theorem v0Step_not_valid (bin : AbsPath) (m : List (AbsPath × String)) (e : Entry)
    (hv : isValidRel e = false) :
    (v0Step bin m e).2 = m ∧
      ∀ a b tt, Issue.duplicateTarget a b tt ∉ (v0Step bin m e).1 := by
  obtain ⟨name, ftype, stat, link⟩ := e
  cases ftype with
  | dirT => exact ⟨rfl, by simp [v0Step]⟩
  | regularT =>
    by_cases hh : isHidden name = true
    · exact ⟨by simp [v0Step, hh], by simp [v0Step, hh]⟩
    · exact ⟨by simp [v0Step, hh], by simp [v0Step, hh]⟩
  | symlinkT =>
    cases stat with
    | notExist => exact ⟨by simp [v0Step], by simp [v0Step]⟩
    | otherErr => exact ⟨by simp [v0Step], by simp [v0Step]⟩
    | ok mo =>
      by_cases hex : isExecutable mo = true
      · cases link with
        | none => exact ⟨by simp [v0Step, hex], by simp [v0Step, hex]⟩
        | some t =>
          cases habs : t.abs
          · exfalso
            simp [isValidRel, hex, habs] at hv
          · exact ⟨by simp [v0Step, hex, habs], by simp [v0Step, hex, habs]⟩
      · have hex' : isExecutable mo = false := by
          cases hx : isExecutable mo
          · rfl
          · exact absurd hx hex
        exact ⟨by simp [v0Step, hex'], by simp [v0Step, hex']⟩

theorem v0Step_dup_mem {bin : AbsPath} {m : List (AbsPath × String)} {e : Entry}
    {a b : String} {tt : AbsPath}
    (h : Issue.duplicateTarget a b tt ∈ (v0Step bin m e).1) :
    a = e.name ∧ isValidRel e = true := by
  cases hv : isValidRel e
  · exact absurd h ((v0Step_not_valid bin m e hv).2 a b tt)
  · cases hl : alookup m (targetOf bin e) with
    | some other =>
      rw [v0Step_valid_dup bin m e hv other hl] at h
      simp at h
      exact ⟨h.1, rfl⟩
    | none =>
      rw [v0Step_valid_new bin m e hv hl] at h
      simp at h

theorem v0Step_lookup_mono (bin : AbsPath) (m : List (AbsPath × String)) (e : Entry)
    (T : AbsPath) (n₀ : String) (h : alookup m T = some n₀) :
    alookup (v0Step bin m e).2 T = some n₀ := by
  cases hv : isValidRel e
  · rw [(v0Step_not_valid bin m e hv).1]
    exact h
  · cases hl : alookup m (targetOf bin e) with
    | some other =>
      rw [v0Step_valid_dup bin m e hv other hl]
      exact h
    | none =>
      rw [v0Step_valid_new bin m e hv hl]
      have hne : T ≠ targetOf bin e := by
        intro hEq
        rw [hEq, hl] at h
        cases h
      rw [alookup, if_neg hne]
      exact h

theorem v0Step_lookup_none (bin : AbsPath) (m : List (AbsPath × String)) (e : Entry)
    (T : AbsPath) (h : alookup m T = none)
    (hnt : ¬(isValidRel e = true ∧ targetOf bin e = T)) :
    alookup (v0Step bin m e).2 T = none := by
  cases hv : isValidRel e
  · rw [(v0Step_not_valid bin m e hv).1]
    exact h
  · cases hl : alookup m (targetOf bin e) with
    | some other =>
      rw [v0Step_valid_dup bin m e hv other hl]
      exact h
    | none =>
      rw [v0Step_valid_new bin m e hv hl]
      have hne : T ≠ targetOf bin e := fun hEq => hnt ⟨hv, hEq.symm⟩
      rw [alookup, if_neg hne]
      exact h

theorem v0Go_cons (bin : AbsPath) (m : List (AbsPath × String)) (e : Entry) (l : List Entry) :
    v0Go bin m (e :: l) = (v0Step bin m e).1 ++ v0Go bin (v0Step bin m e).2 l := rfl

theorem v0Map_cons (bin : AbsPath) (m : List (AbsPath × String)) (e : Entry) (l : List Entry) :
    v0Map bin m (e :: l) = v0Map bin (v0Step bin m e).2 l := rfl

theorem v0Go_dup_of_lookup (bin : AbsPath) (e : Entry) (n₀ : String) (l2 : List Entry)
    (hv : isValidRel e = true) :
    ∀ (l1 : List Entry) (m : List (AbsPath × String)),
      alookup m (targetOf bin e) = some n₀ →
      Issue.duplicateTarget e.name n₀ (targetOf bin e) ∈ v0Go bin m (l1 ++ e :: l2) := by
  intro l1
  induction l1 with
  | nil =>
    intro m hm
    rw [List.nil_append, v0Go_cons, v0Step_valid_dup bin m e hv n₀ hm]
    simp
  | cons a l1 ih =>
    intro m hm
    rw [List.cons_append, v0Go_cons]
    exact List.mem_append_right _ (ih _ (v0Step_lookup_mono bin m a _ n₀ hm))

theorem v0Go_dup_subject (bin : AbsPath) : ∀ (l : List Entry) (m : List (AbsPath × String))
    (a b : String) (tt : AbsPath),
    Issue.duplicateTarget a b tt ∈ v0Go bin m l → ∃ e ∈ l, a = e.name := by
  intro l
  induction l with
  | nil =>
    intro m a b tt h
    cases h
  | cons e l ih =>
    intro m a b tt h
    rw [v0Go_cons] at h
    rcases List.mem_append.mp h with h | h
    · exact ⟨e, List.mem_cons_self _ _, (v0Step_dup_mem h).1⟩
    · obtain ⟨e', he', ha⟩ := ih _ a b tt h
      exact ⟨e', List.mem_cons_of_mem _ he', ha⟩

theorem v0Go_first_not_reported (bin : AbsPath) (e : Entry) (hv : isValidRel e = true) :
    ∀ (l1 l2 : List Entry) (m : List (AbsPath × String)),
      alookup m (targetOf bin e) = none →
      (∀ a ∈ l1, ¬(isValidRel a = true ∧ targetOf bin a = targetOf bin e)) →
      (∀ a ∈ l1, a.name ≠ e.name) → (∀ a ∈ l2, a.name ≠ e.name) →
      ∀ b tt, Issue.duplicateTarget e.name b tt ∉ v0Go bin m (l1 ++ e :: l2) := by
  intro l1
  induction l1 with
  | nil =>
    intro l2 m hm _ _ hl2 b tt h
    rw [List.nil_append, v0Go_cons, v0Step_valid_new bin m e hv hm] at h
    simp only [List.nil_append] at h
    obtain ⟨e', he', ha⟩ := v0Go_dup_subject bin l2 _ _ b tt h
    exact hl2 e' he' ha.symm
  | cons a l1 ih =>
    intro l2 m hm hfirst hl1 hl2 b tt h
    rw [List.cons_append, v0Go_cons] at h
    rcases List.mem_append.mp h with h | h
    · exact hl1 a (List.mem_cons_self _ _) ((v0Step_dup_mem h).1.symm)
    · exact ih l2 _ (v0Step_lookup_none bin m a _ hm (hfirst a (List.mem_cons_self _ _)))
        (fun x hx => hfirst x (List.mem_cons_of_mem _ hx))
        (fun x hx => hl1 x (List.mem_cons_of_mem _ hx)) hl2 b tt h

theorem v0Go_dup_reported (bin : AbsPath) (e1 e2 : Entry)
    (hv1 : isValidRel e1 = true) (hv2 : isValidRel e2 = true)
    (ht : targetOf bin e1 = targetOf bin e2) :
    ∀ (l1 l2 l3 : List Entry) (m : List (AbsPath × String)),
      alookup m (targetOf bin e2) = none →
      (∀ a ∈ l1, ¬(isValidRel a = true ∧ targetOf bin a = targetOf bin e2)) →
      Issue.duplicateTarget e2.name e1.name (targetOf bin e2) ∈
        v0Go bin m (l1 ++ e1 :: (l2 ++ e2 :: l3)) := by
  intro l1
  induction l1 with
  | nil =>
    intro l2 l3 m hm _
    have hm1 : alookup m (targetOf bin e1) = none := by
      rw [ht]
      exact hm
    rw [List.nil_append, v0Go_cons, v0Step_valid_new bin m e1 hv1 hm1]
    simp only [List.nil_append]
    have hlook : alookup ((targetOf bin e1, e1.name) :: m) (targetOf bin e2) = some e1.name := by
      rw [alookup, if_pos ht.symm]
    exact v0Go_dup_of_lookup bin e2 e1.name l3 hv2 l2 _ hlook
  | cons a l1 ih =>
    intro l2 l3 m hm hfirst
    rw [List.cons_append, v0Go_cons]
    refine List.mem_append_right _ ?_
    exact ih l2 l3 _ (v0Step_lookup_none bin m a _ hm (hfirst a (List.mem_cons_self _ _)))
      (fun x hx => hfirst x (List.mem_cons_of_mem _ hx))

/-- Claim C1: in the doctor with duplicate-target detection (the revision
in src/unnamed/part_000), when two distinct valid relative-symlink entries
resolve to the same absolute target, the later one is reported against the
name of the first entry in scan order carrying that target, while that
first entry itself receives no duplicate-target report. -/
theorem c1_doctor_duplicate (bin : AbsPath) (l l1 l2 l3 : List Entry) (e1 e2 : Entry)
    (hl : l = l1 ++ e1 :: (l2 ++ e2 :: l3))
    (hnd : (l.map Entry.name).Nodup)
    (hv1 : isValidRel e1 = true) (hv2 : isValidRel e2 = true)
    (ht : targetOf bin e1 = targetOf bin e2)
    (hfirst : ∀ a ∈ l1, ¬(isValidRel a = true ∧ targetOf bin a = targetOf bin e2)) :
    Issue.duplicateTarget e2.name e1.name (targetOf bin e2) ∈ doctorV0 bin l ∧
    ∀ b tt, Issue.duplicateTarget e1.name b tt ∉ doctorV0 bin l := by
  subst hl
  constructor
  · exact v0Go_dup_reported bin e1 e2 hv1 hv2 ht l1 l2 l3 [] rfl hfirst
  · rw [List.map_append, List.map_cons] at hnd
    obtain ⟨hndl1, hndr, hdisj⟩ := List.nodup_append.mp hnd
    obtain ⟨hnotin, _⟩ := List.nodup_cons.mp hndr
    have h2 : ∀ a ∈ l2 ++ e2 :: l3, a.name ≠ e1.name :=
      fun a ha hEq => hnotin (hEq ▸ List.mem_map_of_mem Entry.name ha)
    have h1 : ∀ a ∈ l1, a.name ≠ e1.name := by
      intro a ha hEq
      exact hdisj (List.mem_map_of_mem Entry.name ha) (by simp [hEq])
    have hfirst' : ∀ a ∈ l1, ¬(isValidRel a = true ∧ targetOf bin a = targetOf bin e1) := by
      intro a ha hcon
      exact hfirst a ha ⟨hcon.1, hcon.2.trans ht⟩
    exact v0Go_first_not_reported bin e1 hv1 l1 (l2 ++ e2 :: l3) [] rfl hfirst' h1 h2

theorem c1_doctor_duplicate_witness :
    Issue.duplicateTarget "b" "a"
        (targetOf ["bin"]
          (Entry.mk "b" .symlinkT (.ok ⟨false, false, 0o755⟩) (some ⟨false, ["x"]⟩))) ∈
      doctorV0 ["bin"]
        ([] ++ Entry.mk "a" .symlinkT (.ok ⟨false, false, 0o755⟩) (some ⟨false, ["x"]⟩) ::
          ([] ++ Entry.mk "b" .symlinkT (.ok ⟨false, false, 0o755⟩) (some ⟨false, ["x"]⟩) :: [])) :=
  (c1_doctor_duplicate ["bin"] _ [] [] []
    (Entry.mk "a" .symlinkT (.ok ⟨false, false, 0o755⟩) (some ⟨false, ["x"]⟩))
    (Entry.mk "b" .symlinkT (.ok ⟨false, false, 0o755⟩) (some ⟨false, ["x"]⟩))
    rfl (by decide) (by decide) (by decide) rfl
    (fun a ha => absurd ha (List.not_mem_nil a))).1
